import Mathlib

/-!
Shallow embedding of the RSVP stimulus-sequencing and scoring engine
(`trial.py`) and proofs about its specified behaviour.

Conventions of the embedding:
* Python floats are modelled as rationals (`ℚ`).  The one operation that
  escapes the rationals is `numpy.std` (a square root); scoring functions
  therefore take the standard-deviation values as explicit arguments, and
  theorems constrain them by the defining property `IsNpStd`
  (nonnegative square root of the population variance).
* `random.shuffle` is modelled by applying an arbitrary permutation of the
  positions, quantified over in the theorems.
* `random.randrange(lo, hi)` draws from the half-open range `[lo, hi)` and
  raises `ValueError` on an empty range; its set of possible values is
  modelled by `repeatDomain`.
* Python's `heapq.heappop` / `heapq.heapreplace` on a heap of distinct
  `(negated count, key)` pairs extract the lexicographically least pair;
  `popMin` implements exactly that extraction on a list representation.
-/

namespace RSVP

/-- Python state constants `Trial.State.INIT` .. `Trial.State.ABORTED`. -/
inductive Mode where
  | INIT
  | PREVIEW
  | RUNNING
  | COMPLETED
  | ABORTED
deriving DecidableEq, Repr

/-- One per-flash sample as consumed by `Trial.process_results`: the fields
of a `BlockResult` that the scoring code reads (`image_id` is the 1-based
flash index, `eeg` the signal value, `sort_position` the rank position). -/
structure BlockRes where
  image_id : Nat
  eeg : ℚ
  sort_position : ℚ
deriving DecidableEq, Repr

/-- The `RankResult` message filled in by `Trial.process_results`. -/
structure RankResult where
  option_ids : List Nat
  confidences : List ℚ
deriving DecidableEq, Repr

/-- Python `sorted` on a list of floats (ascending, stable; stability is
irrelevant on values).  `List.insertionSort` is a stable sort. -/
def pySorted (l : List ℚ) : List ℚ :=
  List.insertionSort (· ≤ ·) l

/-- Model of `np.mean` / `np.average`: sum divided by length.  (`np.mean`
of an empty list is NaN; the claims under verification only apply it to
nonempty lists, where the rational value agrees with the float
computation.) -/
def npMean (l : List ℚ) : ℚ :=
  l.sum / l.length

/-- Model of `np.median`: sort, take the middle element (odd length) or the
average of the two middle elements (even length). -/
def npMedian (l : List ℚ) : ℚ :=
  let s := pySorted l
  let n := l.length
  if n = 0 then 0
  else if n % 2 = 1 then s.getD (n / 2) 0
  else (s.getD (n / 2 - 1) 0 + s.getD (n / 2) 0) / 2

/-- Population variance, the square of `np.std`: mean of squared
deviations from the mean. -/
def npVar (l : List ℚ) : ℚ :=
  npMean (l.map (fun x => (x - npMean l) ^ 2))

/-- Defining property of the value `np.std(l)` returns: the nonnegative
square root of the population variance.  Scoring functions receive the
standard deviations as arguments constrained by this predicate, because an
exact square root is not rational-valued in general. -/
def IsNpStd (l : List ℚ) (s : ℚ) : Prop :=
  0 ≤ s ∧ s ^ 2 = npVar l

instance (l : List ℚ) (s : ℚ) : Decidable (IsNpStd l s) :=
  inferInstanceAs (Decidable (_ ∧ _))

/-- Helper class `OptionResult` of `trial.py` (the fields; the derived
quantities are definitions below). -/
structure OptionResult where
  idx : Nat
  expected_counts : Nat
  eegs : List ℚ
  sort_positions : List ℚ
deriving DecidableEq, Repr

/-- Property `OptionResult.average_eeg`: `np.average(self.eegs)`. -/
def OptionResult.average_eeg (r : OptionResult) : ℚ :=
  npMean r.eegs

/-- Property `OptionResult.avg_best_two`: `np.mean(sorted(self.eegs)[:2])`,
i.e. the mean of the first two elements of the ascending sort. -/
def OptionResult.avg_best_two (r : OptionResult) : ℚ :=
  npMean ((pySorted r.eegs).take 2)

/-- Statistic described by the spec sentence for `avg_best_two`: the mean
of the two largest signal values (first two elements of the descending
sort).  Kept separate so it can be compared with the source's
`OptionResult.avg_best_two`. -/
def avgBestTwoSpec (l : List ℚ) : ℚ :=
  npMean ((List.insertionSort (fun a b : ℚ => b ≤ a) l).take 2)

/-- Resolution of a sample to an option: `self.index_list[result.image_id - 1]`.
Flash ids are 1-based; id 0 would be Python index `-1`, which wraps to the
last element of the list. -/
def optionIdxOf (indexList : List Nat) (imageId : Nat) : Nat :=
  if imageId = 0 then indexList.getD (indexList.length - 1) 0
  else indexList.getD (imageId - 1) 0

/-- The grouping loop of `Trial.process_results`: one `OptionResult` per
option (carrying the option's id and its `option_counts` entry), whose
`eegs` / `sort_positions` collect, in sample order, the samples whose flash
resolved to that option. -/
def collectOptionResults (indexList optionCounts optionIds : List Nat)
    (results : List BlockRes) : List OptionResult :=
  (List.range optionIds.length).map fun i =>
    { idx := optionIds.getD i 0
      expected_counts := optionCounts.getD i 0
      eegs := (results.filter (fun r => optionIdxOf indexList r.image_id = i)).map (·.eeg)
      sort_positions :=
        (results.filter (fun r => optionIdxOf indexList r.image_id = i)).map (·.sort_position) }

/-- Comparison used by `sorted(option_results, key=lambda x: -x.avg_best_two)`:
ascending in the negated statistic, i.e. descending in `avg_best_two`. -/
def rankLe (a b : OptionResult) : Prop :=
  b.avg_best_two ≤ a.avg_best_two

instance : DecidableRel rankLe := fun a b =>
  inferInstanceAs (Decidable (_ ≤ _))

instance : IsTotal OptionResult rankLe :=
  ⟨fun a b => le_total b.avg_best_two a.avg_best_two⟩

instance : IsTrans OptionResult rankLe :=
  ⟨fun _ _ _ h h' => le_trans h' h⟩

/-- The candidate ranking of `Trial.process_results`:
`sorted(option_results, key=lambda x: -x.avg_best_two)` (Python's sort is
stable; so is insertion sort). -/
def rankedOptionResults (indexList optionCounts optionIds : List Nat)
    (results : List BlockRes) : List OptionResult :=
  List.insertionSort rankLe (collectOptionResults indexList optionCounts optionIds results)

/-- The inner function `z` of `process_results`:
`(overall_eeg_med - v) / overall_eeg_std`. -/
def zScore (med std v : ℚ) : ℚ :=
  (med - v) / std

/-- The inner function `percentage_correct` of `process_results`: the
number of the option's samples with `abs(z(eeg)) > 0.5`, divided by the
option's expected count. -/
def percentageCorrect (med std : ℚ) (r : OptionResult) : ℚ :=
  ((r.eegs.filter fun e => |zScore med std e| > 1/2).length : ℚ) / (r.expected_counts : ℚ)

/-- Per-option confidence: `z(res.average_eeg) * percentage_correct(res)`. -/
def confidenceOf (med std : ℚ) (r : OptionResult) : ℚ :=
  zScore med std r.average_eeg * percentageCorrect med std r

/-- The acceptance gate of `process_results` under IEEE float semantics:
`abs(best - rest_mean) / rest_std < 2` raises the retry signal when true.
When `rest_std == 0` the float quotient is `inf` (numerator positive) or
`nan` (numerator zero), and in both cases the comparison with 2 is false,
so the result is accepted; the `rest_std = 0` branch below records exactly
that behaviour. -/
def rejectTest (best restMean restStd : ℚ) : Bool :=
  if restStd = 0 then false
  else decide (|best - restMean| / restStd < 2)

/-- The scoring pipeline of `Trial.process_results` after the grouping
loop: rank by `avg_best_two`, compute confidences from the z-scores, and
either raise the retry signal (`Except.error`) or return the filled
`RankResult`.  `overallStd` and `restStd` stand for
`np.std(eegs)` and `np.std(result.confidences[1:])` (see `IsNpStd`). -/
def scoreResults (indexList optionCounts optionIds : List Nat)
    (results : List BlockRes) (overallStd restStd : ℚ) : Except Unit RankResult :=
  let ranked := rankedOptionResults indexList optionCounts optionIds results
  let med := npMedian (results.map (·.eeg))
  let ids := ranked.map (·.idx)
  let confs := ranked.map (confidenceOf med overallStd)
  let best := confs.getD 0 0
  let restMean := npMean (confs.drop 1)
  if rejectTest best restMean restStd then Except.error ()
  else Except.ok ⟨ids, confs⟩

/-- State of a `Trial` object: the attributes written by `__init__`,
`reset`, `show_next_image` and `process_results`.  Rendering-only fields
(surfaces, fonts, colors) are out of scope.  `optionIds` holds
`[opt[0] for opt in self.options]`. -/
structure Trial where
  mode : Mode
  preview_time : ℚ
  image_time : ℚ
  optionIds : List Nat
  index_list : List Nat
  option_counts : List Nat
  index_ptr : Nat
  selected_index_ptr : Option Nat
  results : Option (List BlockRes)
  option_results : Option (List OptionResult)
deriving DecidableEq, Repr

/-- `Trial.reset`: back to `INIT` with the cursor at 0, clearing the sample
buffer and selection but no structural data; returns the preview time. -/
def Trial.reset (t : Trial) : Trial × ℚ :=
  ({ t with
      mode := Mode.INIT
      index_ptr := 0
      selected_index_ptr := none
      results := none }, t.preview_time)

/-- `Trial.show_next_image`: the state-machine step.  Returns the updated
trial and the wait time handed back to the caller's timer. -/
def Trial.show_next_image (t : Trial) : Trial × ℚ :=
  if t.mode = Mode.INIT then
    ({ t with mode := Mode.PREVIEW }, t.preview_time)
  else if t.mode = Mode.PREVIEW ∨ t.mode = Mode.RUNNING then
    let t1 :=
      if t.mode = Mode.PREVIEW then { t with mode := Mode.RUNNING, index_ptr := 0 }
      else { t with index_ptr := t.index_ptr + 1 }
    if t1.index_list.length ≤ t1.index_ptr then
      ({ t1 with mode := Mode.COMPLETED }, 0)
    else (t1, t.image_time)
  else (t, 0)

/-- `Trial.process_results` as a state transformer: stores the block
results and the (unsorted) per-option groupings on the object, then runs
the scoring pipeline; `Except.error` is the raised `RuntimeError`. -/
def Trial.process_results (t : Trial) (blockResults : List BlockRes)
    (overallStd restStd : ℚ) : Trial × Except Unit RankResult :=
  ({ t with
      results := some blockResults
      option_results :=
        some (collectOptionResults t.index_list t.option_counts t.optionIds blockResults) },
    scoreResults t.index_list t.option_counts t.optionIds blockResults overallStd restStd)

/-- Iterated `show_next_image` (the controller feeding the timer). -/
def advanceN (t : Trial) : Nat → Trial
  | 0 => t
  | n + 1 => advanceN (t.show_next_image).1 n

/-- Wait times returned by `n` consecutive `show_next_image` calls. -/
def waitsN (t : Trial) : Nat → List ℚ
  | 0 => []
  | n + 1 => (t.show_next_image).2 :: waitsN (t.show_next_image).1 n

/-- An externally triggered operation on a live trial. -/
inductive Op where
  | advance
  | reset
deriving DecidableEq, Repr

/-- Apply one operation, discarding the returned wait time. -/
def applyOp (t : Trial) : Op → Trial
  | Op.advance => (t.show_next_image).1
  | Op.reset => (t.reset).1

/-- Apply a sequence of operations from the left. -/
def applyOps (t : Trial) (ops : List Op) : Trial :=
  ops.foldl applyOp t

/-- Cursor safety predicate: while `RUNNING` the cursor indexes into
`index_list`, and it never moves past the end of the list. -/
def cursorInv (t : Trial) : Prop :=
  (t.mode = Mode.RUNNING → t.index_ptr < t.index_list.length) ∧
    t.index_ptr ≤ t.index_list.length

instance (t : Trial) : Decidable (cursorInv t) :=
  inferInstanceAs (Decidable (_ ∧ _))

/-- Lexicographic comparison on `(negated count, key)` pairs, as Python
compares the tuples stored in the heap. -/
def pairLe (a b : Int × Nat) : Bool :=
  a.1 < b.1 || (a.1 = b.1 && a.2 ≤ b.2)

/-- Extraction of the least pair from the heap contents (what
`heapq.heappop` returns, and what `heapq.heapreplace` returns before the
replacement item is inserted).  Yields the least element and the remaining
elements. -/
def popMin : List (Int × Nat) → Option ((Int × Nat) × List (Int × Nat))
  | [] => none
  | x :: xs =>
    match popMin xs with
    | none => some (x, [])
    | some (m, rest) => if pairLe x m then some (x, xs) else some (m, x :: rest)

/-- The `while heap:` loop of `Trial._nonadjacent`.  Returns the yielded
keys together with the final `count` and `key` (which feed the trailing
`for index in xrange(-count): yield key`).  On each step the pending
`(count, key)` pair is pushed back into the heap exactly when `count` is
nonzero (`heapreplace`), and the least pair of the previous heap contents
is extracted.  `fuel` bounds the number of iterations; every theorem below
supplies enough fuel for the loop to run to completion. -/
def nonadjLoop : Nat → List (Int × Nat) → Int → Nat → List Nat × Int × Nat
  | 0, _, count, key => ([], count, key)
  | fuel + 1, heap, count, key =>
    match popMin heap with
    | none => ([], count, key)
    | some ((c, k), rest) =>
      let heap2 := if count = 0 then rest else rest ++ [(count, key)]
      let r := nonadjLoop fuel heap2 (c + 1) k
      (k :: r.1, r.2)

/-- `Trial._nonadjacent(option_counts)` materialized as a list: build the
heap `[(-count, key) for (key, count) in enumerate(option_counts)]`, run
the loop, then append the trailing `xrange(-count)` repetitions of the
last key.  Python's initial `key = None` is never yielded because the
first iteration takes the `heappop` branch; the placeholder key 0 used
here is likewise dead. -/
def nonadjacent (counts : List Nat) : List Nat :=
  let heap := (List.range counts.length).map fun j => (-(counts.getD j 0 : Int), j)
  let r := nonadjLoop (counts.sum + 1) heap 0 0
  r.1 ++ List.replicate (-r.2.1).toNat r.2.2

/-- Outcome of `random.shuffle` modelled as reading the list through a
permutation of its positions: position `i` of the output holds element
`perm[i]` of the input.  Quantifying over all `perm` that permute
`range(len l)` covers every outcome the shuffle can produce. -/
def applyPerm (perm : List Nat) (l : List Nat) : List Nat :=
  perm.map fun i => l.getD i 0

/-- The `index_list` produced by `Trial._construct_trial` for a realized
repeat plan `counts`: the greedy non-adjacent order followed by the final
`random.shuffle`, the latter represented by `perm`. -/
def construct_trial_order (counts perm : List Nat) : List Nat :=
  applyPerm perm (nonadjacent counts)

/-- Decidable check that no two adjacent elements are equal. -/
def chainNe : List Nat → Bool
  | [] => true
  | [_] => true
  | a :: b :: rest => a ≠ b && chainNe (b :: rest)

/-- Decidable check that every element equals the first. -/
def constList : List Nat → Bool
  | [] => true
  | a :: rest => rest.all (· = a)

/-- Decidable form of the non-adjacency property with the documented edge
case: the list splits into a prefix with no two adjacent equal elements
followed by a constant tail (the trailing run of the single option that
still has repeats left). -/
def nonAdjExceptTail (out : List Nat) : Bool :=
  (List.range (out.length + 1)).any fun i =>
    chainNe (out.take i) && constList (out.drop i)

/-- Clamping in `Trial.__init__`: `self.min_repeat = max(1, min_repeat)`. -/
def clampMinRepeat (minRepeat : Nat) : Nat :=
  max 1 minRepeat

/-- Clamping in `Trial.__init__`:
`self.max_repeat = max(self.min_repeat, max_repeat)`. -/
def clampMaxRepeat (minRepeat maxRepeat : Nat) : Nat :=
  max (clampMinRepeat minRepeat) maxRepeat

/-- Set of per-option repeat counts `Trial._construct_trial` can draw:
`random.randrange(self.min_repeat, self.max_repeat)` ranges over the
half-open interval `[min_repeat, max_repeat)` after clamping, and raises
`ValueError` when the interval is empty — the empty list here. -/
def repeatDomain (minRepeat maxRepeat : Nat) : List Nat :=
  (List.range (clampMaxRepeat minRepeat maxRepeat)).drop (clampMinRepeat minRepeat)

/-! ### Heap loop: auxiliary sums -/

/-- Total remaining yield budget stored in the heap (counts are stored
negated). -/
def sumNeg (heap : List (Int × Nat)) : Nat :=
  (heap.map fun p => (-p.1).toNat).sum

/-- Remaining yield budget for one key `k` stored in the heap. -/
def sumNegK (heap : List (Int × Nat)) (k : Nat) : Nat :=
  (heap.map fun p => if p.2 = k then (-p.1).toNat else 0).sum

/-- Total number of elements the loop and the trailing range still owe. -/
def potential (heap : List (Int × Nat)) (count : Int) : Nat :=
  sumNeg heap + (-count).toNat

/-- Number of copies of `k` the loop state still owes, counting both the
heap and the pending `(count, key)` pair. -/
def owed (heap : List (Int × Nat)) (count : Int) (key k : Nat) : Nat :=
  sumNegK heap k + (if key = k then (-count).toNat else 0)

theorem popMin_eq_none {l : List (Int × Nat)} (h : popMin l = none) : l = [] := by
  cases l with
  | nil => rfl
  | cons x xs =>
    simp only [popMin] at h
    rcases hx : popMin xs with _ | ⟨m, rest⟩ <;> rw [hx] at h
    · simp at h
    · by_cases hle : pairLe x m = true <;> simp [hle] at h

theorem popMin_perm : ∀ {l : List (Int × Nat)} {m : Int × Nat} {rest : List (Int × Nat)},
    popMin l = some (m, rest) → l.Perm (m :: rest)
  | [], _, _, h => by simp [popMin] at h
  | x :: xs, m, rest, h => by
    simp only [popMin] at h
    rcases hx : popMin xs with _ | ⟨m', rest'⟩ <;> rw [hx] at h
    · obtain rfl := popMin_eq_none hx
      simp only [Option.some.injEq, Prod.mk.injEq] at h
      obtain ⟨rfl, rfl⟩ := h
      exact List.Perm.refl _
    · have ih := popMin_perm hx
      by_cases hle : pairLe x m' = true
      · simp only [hle, if_true, Option.some.injEq, Prod.mk.injEq] at h
        obtain ⟨rfl, rfl⟩ := h
        exact List.Perm.refl _
      · simp only [hle, if_false, Option.some.injEq, Prod.mk.injEq] at h
        obtain ⟨rfl, rfl⟩ := h
        exact (ih.cons x).trans (List.Perm.swap m x rest')

theorem sumNeg_cons (p : Int × Nat) (l : List (Int × Nat)) :
    sumNeg (p :: l) = (-p.1).toNat + sumNeg l := by
  simp [sumNeg]

theorem sumNegK_cons (p : Int × Nat) (l : List (Int × Nat)) (k : Nat) :
    sumNegK (p :: l) k = (if p.2 = k then (-p.1).toNat else 0) + sumNegK l k := by
  simp [sumNegK]

theorem sumNeg_append_single (l : List (Int × Nat)) (p : Int × Nat) :
    sumNeg (l ++ [p]) = sumNeg l + (-p.1).toNat := by
  simp [sumNeg]

theorem sumNegK_append_single (l : List (Int × Nat)) (p : Int × Nat) (k : Nat) :
    sumNegK (l ++ [p]) k = sumNegK l k + (if p.2 = k then (-p.1).toNat else 0) := by
  simp [sumNegK]

theorem sumNeg_perm {l₁ l₂ : List (Int × Nat)} (h : l₁.Perm l₂) :
    sumNeg l₁ = sumNeg l₂ :=
  (h.map _).sum_eq

theorem sumNegK_perm {l₁ l₂ : List (Int × Nat)} (h : l₁.Perm l₂) (k : Nat) :
    sumNegK l₁ k = sumNegK l₂ k :=
  (h.map _).sum_eq

theorem sumNeg_cons_pair (c : Int) (kk : Nat) (l : List (Int × Nat)) :
    sumNeg ((c, kk) :: l) = (-c).toNat + sumNeg l := by
  simp [sumNeg]

theorem sumNegK_cons_pair (c : Int) (kk : Nat) (l : List (Int × Nat)) (k : Nat) :
    sumNegK ((c, kk) :: l) k = (if kk = k then (-c).toNat else 0) + sumNegK l k := by
  simp [sumNegK]

theorem sumNeg_append_pair (l : List (Int × Nat)) (c : Int) (kk : Nat) :
    sumNeg (l ++ [(c, kk)]) = sumNeg l + (-c).toNat := by
  simp [sumNeg]

theorem sumNegK_append_pair (l : List (Int × Nat)) (c : Int) (kk : Nat) (k : Nat) :
    sumNegK (l ++ [(c, kk)]) k = sumNegK l k + (if kk = k then (-c).toNat else 0) := by
  simp [sumNegK]

/-- Loop invariant of `Trial._nonadjacent`: with enough fuel, under the
invariant that every stored count is negative and the pending count is
nonpositive, the loop yields exactly `potential` many elements counting
the trailing range, and owes each key exactly its stored budget. -/
theorem nonadjLoop_spec : ∀ (fuel : Nat) (heap : List (Int × Nat)) (count : Int) (key : Nat),
    (∀ p ∈ heap, p.1 < 0) → count ≤ 0 → potential heap count ≤ fuel →
    (nonadjLoop fuel heap count key).2.1 ≤ 0 ∧
    (nonadjLoop fuel heap count key).1.length + (-(nonadjLoop fuel heap count key).2.1).toNat =
      potential heap count ∧
    (∀ k : Nat, (nonadjLoop fuel heap count key).1.count k +
        (if (nonadjLoop fuel heap count key).2.2 = k
          then (-(nonadjLoop fuel heap count key).2.1).toNat else 0) =
      owed heap count key k)
  | 0, heap, count, key, _, hc, hfuel => by
    have h1 : sumNeg heap = 0 ∧ (-count).toNat = 0 := by
      unfold potential at hfuel
      omega
    refine ⟨hc, ?_, ?_⟩
    · simp [nonadjLoop, potential, h1.1, h1.2]
    · intro k
      have hk : sumNegK heap k = 0 := by
        have hle : sumNegK heap k ≤ sumNeg heap := by
          unfold sumNegK sumNeg
          apply List.sum_le_sum
          intro p _
          split <;> omega
        omega
      simp [nonadjLoop, owed, hk, h1.2]
  | fuel + 1, heap, count, key, hneg, hc, hfuel => by
    rcases hpop : popMin heap with _ | ⟨⟨c, k'⟩, rest⟩
    · obtain rfl := popMin_eq_none hpop
      refine ⟨hc, ?_, ?_⟩
      · simp [nonadjLoop, hpop, potential, sumNeg]
      · intro k
        simp [nonadjLoop, hpop, owed, sumNegK]
    · have hperm := popMin_perm hpop
      have hcneg : c < 0 := hneg (c, k') (hperm.mem_iff.mpr (List.mem_cons_self _ _))
      have hSN : sumNeg heap = (-c).toNat + sumNeg rest := by
        rw [sumNeg_perm hperm, sumNeg_cons_pair]
      have hSNK : ∀ k, sumNegK heap k = (if k' = k then (-c).toNat else 0) + sumNegK rest k := by
        intro k
        rw [sumNegK_perm hperm, sumNegK_cons_pair]
      have hrneg : ∀ p ∈ rest, p.1 < 0 := fun p hp =>
        hneg p (hperm.mem_iff.mpr (List.mem_cons_of_mem _ hp))
      by_cases hc0 : count = 0
      · subst hc0
        simp only [nonadjLoop, hpop, ite_true, if_pos rfl]
        have hfuel' : potential rest (c + 1) ≤ fuel := by
          unfold potential at hfuel ⊢
          rw [hSN] at hfuel
          omega
        have ih := nonadjLoop_spec fuel rest (c + 1) k' hrneg (by omega) hfuel'
        refine ⟨ih.1, ?_, ?_⟩
        · have h2 := ih.2.1
          unfold potential at h2 ⊢
          simp only [List.length_cons]
          rw [hSN]
          omega
        · intro k
          have h3 := ih.2.2 k
          unfold owed at h3 ⊢
          rw [hSNK k]
          simp only [List.count_cons, beq_iff_eq]
          split_ifs at h3 ⊢ <;> omega
      · have hcount : count < 0 := by omega
        simp only [nonadjLoop, hpop, if_neg hc0]
        have hfuel' : potential (rest ++ [(count, key)]) (c + 1) ≤ fuel := by
          unfold potential at hfuel ⊢
          rw [hSN] at hfuel
          rw [sumNeg_append_pair]
          omega
        have hneg' : ∀ p ∈ rest ++ [(count, key)], p.1 < 0 := by
          intro p hp
          rcases List.mem_append.mp hp with hp | hp
          · exact hrneg p hp
          · simp only [List.mem_singleton] at hp
            subst hp
            exact hcount
        have ih := nonadjLoop_spec fuel (rest ++ [(count, key)]) (c + 1) k' hneg' (by omega) hfuel'
        refine ⟨ih.1, ?_, ?_⟩
        · have h2 := ih.2.1
          unfold potential at h2 ⊢
          rw [sumNeg_append_pair] at h2
          simp only [List.length_cons]
          rw [hSN]
          omega
        · intro k
          have h3 := ih.2.2 k
          unfold owed at h3 ⊢
          rw [sumNegK_append_pair] at h3
          rw [hSNK k]
          simp only [List.count_cons, beq_iff_eq]
          split_ifs at h3 ⊢ <;> omega

/-- Adjacent yields of the `Trial._nonadjacent` loop always differ: the
pending key is held out of the heap for exactly one extraction, so the next
extracted key cannot equal the key just yielded. -/
theorem nonadjLoop_chain : ∀ (fuel : Nat) (heap : List (Int × Nat)) (count : Int) (key : Nat),
    (heap.map (fun p => p.2)).Nodup →
    (count ≠ 0 → key ∉ heap.map (fun p => p.2)) →
    List.Chain' (fun a b => a ≠ b) (nonadjLoop fuel heap count key).1 ∧
    (key ∉ heap.map (fun p => p.2) →
      ∀ h ∈ (nonadjLoop fuel heap count key).1.head?, h ≠ key)
  | 0, heap, count, key, _, _ => by
    simp [nonadjLoop]
  | fuel + 1, heap, count, key, hnd, hkey => by
    rcases hpop : popMin heap with _ | ⟨⟨c, k'⟩, rest⟩
    · simp [nonadjLoop, hpop]
    · have hperm := popMin_perm hpop
      have hkperm : (heap.map (fun p => p.2)).Perm (k' :: rest.map (fun p => p.2)) := by
        simpa using hperm.map (fun p => p.2)
      have hnd' : (k' :: rest.map (fun p => p.2)).Nodup := (hkperm.nodup_iff).mp hnd
      have hk'notin : k' ∉ rest.map (fun p => p.2) := (List.nodup_cons.mp hnd').1
      have hndrest : (rest.map (fun p => p.2)).Nodup := (List.nodup_cons.mp hnd').2
      have hk'heap : k' ∈ heap.map (fun p => p.2) := hkperm.mem_iff.mpr (List.mem_cons_self _ _)
      by_cases hc0 : count = 0
      · subst hc0
        simp only [nonadjLoop, hpop, ite_true, if_pos rfl]
        have ih := nonadjLoop_chain fuel rest (c + 1) k' hndrest (fun _ => hk'notin)
        constructor
        · rw [List.chain'_cons']
          exact ⟨fun y hy => (ih.2 hk'notin y hy).symm, ih.1⟩
        · intro hkeynotin y hy
          simp only [List.head?_cons, Option.mem_def, Option.some.injEq] at hy
          subst hy
          exact fun he => hkeynotin (he ▸ hk'heap)
      · simp only [nonadjLoop, hpop, if_neg hc0]
        have hkeyn : key ∉ heap.map (fun p => p.2) := hkey hc0
        have hkeyrest : key ∉ rest.map (fun p => p.2) := fun h =>
          hkeyn (hkperm.mem_iff.mpr (List.mem_cons_of_mem _ h))
        have hnd2 : ((rest ++ [(count, key)]).map (fun p => p.2)).Nodup := by
          simp only [List.map_append, List.map_cons, List.map_nil]
          refine List.Nodup.append hndrest (List.nodup_singleton key) ?_
          intro a ha hb
          simp only [List.mem_singleton] at hb
          subst hb
          exact hkeyrest ha
        have hk'2 : k' ∉ (rest ++ [(count, key)]).map (fun p => p.2) := by
          simp only [List.map_append, List.map_cons, List.map_nil, List.mem_append,
            List.mem_singleton]
          rintro (h | h)
          · exact hk'notin h
          · exact hkeyn (h ▸ hk'heap)
        have ih := nonadjLoop_chain fuel (rest ++ [(count, key)]) (c + 1) k' hnd2 (fun _ => hk'2)
        constructor
        · rw [List.chain'_cons']
          exact ⟨fun y hy => (ih.2 hk'2 y hy).symm, ih.1⟩
        · intro hkeynotin y hy
          simp only [List.head?_cons, Option.mem_def, Option.some.injEq] at hy
          subst hy
          exact fun he => hkeynotin (he ▸ hk'heap)

theorem map_getD_range (l : List Nat) :
    (List.range l.length).map (fun j => l.getD j 0) = l := by
  apply List.ext_getElem
  · simp
  · intro i h1 h2
    simp only [List.getElem_map, List.getElem_range]
    exact List.getD_eq_getElem l 0 h2

theorem sum_range_ite (a : Nat → Nat) (k : Nat) :
    ∀ n : Nat, ((List.range n).map fun j => if j = k then a j else 0).sum =
      if k < n then a k else 0
  | 0 => by simp
  | n + 1 => by
    rw [List.range_succ, List.map_append, List.sum_append, sum_range_ite a k n]
    simp only [List.map_cons, List.map_nil, List.sum_cons, List.sum_nil, add_zero]
    by_cases h2 : n = k
    · subst h2
      simp [Nat.lt_irrefl, Nat.lt_succ_self]
    · simp only [if_neg h2, add_zero]
      by_cases h1 : k < n
      · rw [if_pos h1, if_pos (by omega)]
      · rw [if_neg h1, if_neg (by omega)]

/-- The greedy order `Trial._nonadjacent(option_counts)` has length equal
to the total repeat budget and contains each option index exactly its
repeat count many times. -/
theorem nonadjacent_spec (counts : List Nat) (hpos : ∀ c ∈ counts, 1 ≤ c) :
    (nonadjacent counts).length = counts.sum ∧
    ∀ k, (nonadjacent counts).count k = counts.getD k 0 := by
  have hneg : ∀ p ∈ (List.range counts.length).map
      (fun j => (-(counts.getD j 0 : Int), j)), p.1 < 0 := by
    intro p hp
    simp only [List.mem_map, List.mem_range] at hp
    obtain ⟨j, hj, rfl⟩ := hp
    have hmem : counts.getD j 0 ∈ counts := by
      rw [List.getD_eq_getElem counts 0 hj]
      exact List.getElem_mem hj
    have h1 := hpos _ hmem
    simp only []
    omega
  have hsum : sumNeg ((List.range counts.length).map
      fun j => (-(counts.getD j 0 : Int), j)) = counts.sum := by
    unfold sumNeg
    rw [List.map_map]
    have hfun : ((fun p : Int × Nat => (-p.1).toNat) ∘
        fun j => (-(counts.getD j 0 : Int), j)) = fun j => counts.getD j 0 := by
      funext j
      simp
    rw [hfun, map_getD_range]
  have hsumK : ∀ k, sumNegK ((List.range counts.length).map
      fun j => (-(counts.getD j 0 : Int), j)) k = counts.getD k 0 := by
    intro k
    unfold sumNegK
    rw [List.map_map]
    have hfun : ((fun p : Int × Nat => if p.2 = k then (-p.1).toNat else 0) ∘
        fun j => (-(counts.getD j 0 : Int), j)) =
        fun j => if j = k then counts.getD j 0 else 0 := by
      funext j
      by_cases hjk : j = k <;> simp [hjk]
    rw [hfun, sum_range_ite]
    by_cases hk : k < counts.length
    · rw [if_pos hk]
    · rw [if_neg hk, List.getD_eq_default counts 0 (by omega)]
  have hfuel : potential ((List.range counts.length).map
      fun j => (-(counts.getD j 0 : Int), j)) 0 ≤ counts.sum + 1 := by
    unfold potential
    rw [hsum]
    simp
  have hspec := nonadjLoop_spec (counts.sum + 1)
    ((List.range counts.length).map fun j => (-(counts.getD j 0 : Int), j)) 0 0
    hneg le_rfl hfuel
  have hdef : nonadjacent counts =
      (nonadjLoop (counts.sum + 1)
        ((List.range counts.length).map fun j => (-(counts.getD j 0 : Int), j)) 0 0).1 ++
      List.replicate (-(nonadjLoop (counts.sum + 1)
        ((List.range counts.length).map fun j => (-(counts.getD j 0 : Int), j)) 0 0).2.1).toNat
        (nonadjLoop (counts.sum + 1)
          ((List.range counts.length).map fun j => (-(counts.getD j 0 : Int), j)) 0 0).2.2 := rfl
  constructor
  · rw [hdef]
    simp only [List.length_append, List.length_replicate]
    have h2 := hspec.2.1
    unfold potential at h2
    rw [hsum] at h2
    omega
  · intro k
    rw [hdef, List.count_append, List.count_replicate]
    simp only [beq_iff_eq]
    have h3 := hspec.2.2 k
    unfold owed at h3
    rw [hsumK k] at h3
    simp only [neg_zero, Int.toNat_zero, ite_self, add_zero] at h3
    by_cases hk : (nonadjLoop (counts.sum + 1)
        ((List.range counts.length).map fun j => (-(counts.getD j 0 : Int), j)) 0 0).2.2 = k
    · rw [if_pos hk] at h3
      rw [if_pos hk]
      omega
    · rw [if_neg hk] at h3
      rw [if_neg hk]
      omega

/-- The greedy order splits into a prefix with no two adjacent equal
indices followed by a constant tail (the trailing run of the last
remaining option). -/
theorem nonadjacent_split (counts : List Nat) :
    ∃ l₁ m kk, nonadjacent counts = l₁ ++ List.replicate m kk ∧
      List.Chain' (fun a b => a ≠ b) l₁ := by
  have hkeys : (((List.range counts.length).map
      fun j => (-(counts.getD j 0 : Int), j)).map (fun p => p.2)) =
      List.range counts.length := by
    rw [List.map_map]
    have : ((fun p : Int × Nat => p.2) ∘ fun j => (-(counts.getD j 0 : Int), j)) =
        fun j => j := by
      funext j
      simp
    rw [this, List.map_id']
  refine ⟨(nonadjLoop (counts.sum + 1)
      ((List.range counts.length).map fun j => (-(counts.getD j 0 : Int), j)) 0 0).1,
    _, _, rfl, ?_⟩
  exact (nonadjLoop_chain (counts.sum + 1)
    ((List.range counts.length).map fun j => (-(counts.getD j 0 : Int), j)) 0 0
    (by rw [hkeys]; exact List.nodup_range _) (fun h => absurd rfl h)).1

theorem chainNe_iff : ∀ l : List Nat, chainNe l = true ↔ List.Chain' (fun a b => a ≠ b) l
  | [] => by simp [chainNe]
  | [a] => by simp [chainNe]
  | a :: b :: l => by
    simp [chainNe, chainNe_iff (b :: l), List.chain'_cons]

theorem constList_replicate (m k : Nat) : constList (List.replicate m k) = true := by
  cases m with
  | zero => rfl
  | succ m =>
    simp only [List.replicate_succ, constList, List.all_eq_true]
    intro x hx
    simp [List.eq_of_mem_replicate hx]

theorem nonAdjExceptTail_of_split {l l₁ : List Nat} {m kk : Nat}
    (hsplit : l = l₁ ++ List.replicate m kk)
    (hchain : List.Chain' (fun a b => a ≠ b) l₁) :
    nonAdjExceptTail l = true := by
  unfold nonAdjExceptTail
  rw [List.any_eq_true]
  refine ⟨l₁.length, ?_, ?_⟩
  · rw [List.mem_range]
    subst hsplit
    simp only [List.length_append, List.length_replicate]
    omega
  · rw [Bool.and_eq_true]
    constructor
    · rw [chainNe_iff]
      subst hsplit
      rw [List.take_left]
      exact hchain
    · subst hsplit
      rw [List.drop_left]
      exact constList_replicate m kk

/-! ### State machine lemmas -/

theorem advance_preserves_structure (t : Trial) :
    (t.show_next_image).1.index_list = t.index_list ∧
    (t.show_next_image).1.option_counts = t.option_counts ∧
    (t.show_next_image).1.preview_time = t.preview_time ∧
    (t.show_next_image).1.image_time = t.image_time ∧
    (t.show_next_image).1.optionIds = t.optionIds := by
  cases hm : t.mode <;>
    simp [Trial.show_next_image, hm] <;> split <;> simp

theorem terminal_advance_noop (t : Trial)
    (h : t.mode = Mode.COMPLETED ∨ t.mode = Mode.ABORTED) :
    t.show_next_image = (t, 0) := by
  rcases h with h | h <;>
    simp [Trial.show_next_image, h]

theorem run_phase : ∀ (n : Nat) (t : Trial), t.mode = Mode.RUNNING →
    t.index_list.length = t.index_ptr + 1 + n →
    waitsN t (n + 1) = List.replicate n t.image_time ++ [0] ∧
    (advanceN t (n + 1)).mode = Mode.COMPLETED ∧
    (∀ i, i ≤ n → (advanceN t i).mode = Mode.RUNNING)
  | 0, t, hm, hl => by
    have hstep :
        t.show_next_image = ({ t with mode := Mode.COMPLETED, index_ptr := t.index_ptr + 1 }, 0) := by
      simp [Trial.show_next_image, hm, hl]
    refine ⟨?_, ?_, ?_⟩
    · change (t.show_next_image).2 :: waitsN (t.show_next_image).1 0 = _
      simp [hstep, waitsN]
    · change (advanceN (t.show_next_image).1 0).mode = _
      simp [hstep, advanceN]
    · intro i hi
      interval_cases i
      exact hm
  | n + 1, t, hm, hl => by
    have hlt : ¬ t.index_list.length ≤ t.index_ptr + 1 := by omega
    have hstep :
        t.show_next_image = ({ t with index_ptr := t.index_ptr + 1 }, t.image_time) := by
      simp [Trial.show_next_image, hm, hlt]
    have ih := run_phase n { t with index_ptr := t.index_ptr + 1 } (by exact hm)
      (by change t.index_list.length = t.index_ptr + 1 + 1 + n; omega)
    refine ⟨?_, ?_, ?_⟩
    · change (t.show_next_image).2 :: waitsN (t.show_next_image).1 (n + 1) = _
      simp only [hstep]
      rw [ih.1]
      simp [List.replicate_succ]
    · change (advanceN (t.show_next_image).1 (n + 1)).mode = _
      simp only [hstep]
      exact ih.2.1
    · intro i hi
      match i with
      | 0 => exact hm
      | j + 1 =>
        change (advanceN (t.show_next_image).1 j).mode = _
        simp only [hstep]
        exact ih.2.2 j (by omega)

theorem trajectory (t : Trial) (h : t.mode = Mode.INIT) :
    waitsN t (2 + t.index_list.length) =
      t.preview_time :: (List.replicate t.index_list.length t.image_time ++ [0]) ∧
    (advanceN t 1).mode = Mode.PREVIEW ∧
    (∀ i, i < t.index_list.length → (advanceN t (2 + i)).mode = Mode.RUNNING) ∧
    (advanceN t (2 + t.index_list.length)).mode = Mode.COMPLETED := by
  have hstep1 : t.show_next_image = ({ t with mode := Mode.PREVIEW }, t.preview_time) := by
    simp [Trial.show_next_image, h]
  rcases hL : t.index_list.length with _ | n
  · have hstep2 : ({ t with mode := Mode.PREVIEW } : Trial).show_next_image =
        ({ t with mode := Mode.COMPLETED, index_ptr := 0 }, 0) := by
      simp [Trial.show_next_image, hL]
    refine ⟨?_, ?_, ?_, ?_⟩
    · change (t.show_next_image).2 :: ((t.show_next_image).1.show_next_image).2 ::
        waitsN ((t.show_next_image).1.show_next_image).1 0 = _
      simp only [hstep1, hstep2]
      simp [waitsN]
    · change ((t.show_next_image).1).mode = _
      simp [hstep1]
    · intro i hi
      omega
    · change (advanceN ((t.show_next_image).1.show_next_image).1 0).mode = _
      simp only [hstep1, hstep2]
      simp [advanceN]
  · have hstep2 : ({ t with mode := Mode.PREVIEW } : Trial).show_next_image =
        ({ t with mode := Mode.RUNNING, index_ptr := 0 }, t.image_time) := by
      have hnle : ¬ t.index_list.length ≤ 0 := by omega
      simp [Trial.show_next_image, hnle]
    set t2 : Trial := { t with mode := Mode.RUNNING, index_ptr := 0 } with ht2
    have hrun := run_phase n t2 (by exact rfl)
      (by change t.index_list.length = 0 + 1 + n; omega)
    refine ⟨?_, ?_, ?_, ?_⟩
    · rw [show 2 + (n + 1) = (n + 1) + 1 + 1 from by omega]
      change (t.show_next_image).2 :: ((t.show_next_image).1.show_next_image).2 ::
        waitsN ((t.show_next_image).1.show_next_image).1 (n + 1) = _
      simp only [hstep1, hstep2]
      rw [hrun.1]
      simp [ht2, List.replicate_succ]
    · change ((t.show_next_image).1).mode = _
      simp [hstep1]
    · intro i hi
      rw [show 2 + i = i + 1 + 1 from by omega]
      change (advanceN ((t.show_next_image).1.show_next_image).1 i).mode = _
      simp only [hstep1, hstep2]
      exact hrun.2.2 i (by omega)
    · rw [show 2 + (n + 1) = (n + 1) + 1 + 1 from by omega]
      change (advanceN ((t.show_next_image).1.show_next_image).1 (n + 1)).mode = _
      simp only [hstep1, hstep2]
      exact hrun.2.1

/-! ### Claims C6, C7, C9, C10 -/

/-- Claim C6: from INIT, exactly `2 + len(order)` calls of
`show_next_image` drive the machine INIT → PREVIEW → RUNNING (one call per
flash) → COMPLETED; the first call returns the preview duration, the next
`len(order)` calls return the flash duration, the final call returns 0
with state COMPLETED, and further calls in COMPLETED or ABORTED leave the
trial unchanged and return 0. -/
theorem C6_advance_drives_state_machine (t : Trial) (h : t.mode = Mode.INIT) :
    waitsN t (2 + t.index_list.length) =
      t.preview_time :: (List.replicate t.index_list.length t.image_time ++ [0]) ∧
    (advanceN t 1).mode = Mode.PREVIEW ∧
    (∀ i, i < t.index_list.length → (advanceN t (2 + i)).mode = Mode.RUNNING) ∧
    (advanceN t (2 + t.index_list.length)).mode = Mode.COMPLETED ∧
    (∀ t' : Trial, t'.mode = Mode.COMPLETED ∨ t'.mode = Mode.ABORTED →
      t'.show_next_image = (t', 0)) := by
  obtain ⟨h1, h2, h3, h4⟩ := trajectory t h
  exact ⟨h1, h2, h3, h4, fun t' h' => terminal_advance_noop t' h'⟩

/-- Witness for C6 at a concrete freshly built trial with a 3-flash order. -/
theorem C6_witness :
    (⟨Mode.INIT, 1000, 100, [5, 7], [0, 1, 0], [2, 1], 0, none, none, none⟩ :
        Trial).mode = Mode.INIT ∧
    waitsN (⟨Mode.INIT, 1000, 100, [5, 7], [0, 1, 0], [2, 1], 0, none, none, none⟩ :
        Trial) 5 = [1000, 100, 100, 100, 0] := by
  constructor
  · rfl
  · have := (C6_advance_drives_state_machine
      (⟨Mode.INIT, 1000, 100, [5, 7], [0, 1, 0], [2, 1], 0, none, none, none⟩ : Trial)
      rfl).1
    simpa using this

/-- Claim C7: `reset` returns to INIT with cursor 0, hands back the preview
wait time, leaves `index_list` and `option_counts` untouched, and the trial
then replays the same wait-time schedule over the unchanged order. -/
theorem C7_reset_restores_init (t : Trial) :
    (t.reset).1.mode = Mode.INIT ∧
    (t.reset).1.index_ptr = 0 ∧
    (t.reset).2 = t.preview_time ∧
    (t.reset).1.index_list = t.index_list ∧
    (t.reset).1.option_counts = t.option_counts ∧
    waitsN (t.reset).1 (2 + t.index_list.length) =
      t.preview_time :: (List.replicate t.index_list.length t.image_time ++ [0]) := by
  refine ⟨rfl, rfl, rfl, rfl, rfl, ?_⟩
  simpa [Trial.reset] using (trajectory (t.reset).1 rfl).1

/-- Claim C9: `process_results` writes only the sample-result buffers
(`results`, `option_results`); the sequencing state (`mode`, `index_ptr`,
`index_list`, `option_counts`) and the timing configuration are unchanged,
whether the scoring pass accepts or raises the retry signal (both outcomes
share the same post-state in the embedding, since the method performs no
further attribute writes after the buffers). -/
theorem C9_process_results_frame (t : Trial) (res : List BlockRes) (s₁ s₂ : ℚ) :
    (t.process_results res s₁ s₂).1.mode = t.mode ∧
    (t.process_results res s₁ s₂).1.index_ptr = t.index_ptr ∧
    (t.process_results res s₁ s₂).1.index_list = t.index_list ∧
    (t.process_results res s₁ s₂).1.option_counts = t.option_counts ∧
    (t.process_results res s₁ s₂).1.preview_time = t.preview_time ∧
    (t.process_results res s₁ s₂).1.image_time = t.image_time ∧
    (t.process_results res s₁ s₂).1.optionIds = t.optionIds ∧
    (t.process_results res s₁ s₂).1.results = some res ∧
    (t.process_results res s₁ s₂).1.option_results =
      some (collectOptionResults t.index_list t.option_counts t.optionIds res) :=
  ⟨rfl, rfl, rfl, rfl, rfl, rfl, rfl, rfl, rfl⟩

theorem cursorInv_step (t : Trial) (o : Op) (h : cursorInv t) :
    cursorInv (applyOp t o) := by
  obtain ⟨hrun, hle⟩ := h
  cases o with
  | reset =>
    refine ⟨?_, ?_⟩ <;> simp [applyOp, Trial.reset, cursorInv]
  | advance =>
    cases hm : t.mode with
    | INIT =>
      refine ⟨?_, ?_⟩ <;> simp [applyOp, Trial.show_next_image, hm]
      exact hle
    | PREVIEW =>
      rcases le_or_lt t.index_list.length 0 with hc | hc
      · have hstep :
            t.show_next_image = ({ t with mode := Mode.COMPLETED, index_ptr := 0 }, (0 : ℚ)) := by
          simp [Trial.show_next_image, hm, hc]
        refine ⟨?_, ?_⟩ <;> simp [applyOp, hstep]
      · have hnc : ¬ t.index_list.length ≤ 0 := by omega
        have hstep :
            t.show_next_image = ({ t with mode := Mode.RUNNING, index_ptr := 0 }, t.image_time) := by
          simp [Trial.show_next_image, hm, hnc]
        refine ⟨?_, ?_⟩ <;> simp [applyOp, hstep] <;> omega
    | RUNNING =>
      have hlt := hrun hm
      rcases le_or_lt t.index_list.length (t.index_ptr + 1) with hc | hc
      · have hstep : t.show_next_image =
            ({ t with mode := Mode.COMPLETED, index_ptr := t.index_ptr + 1 }, (0 : ℚ)) := by
          simp [Trial.show_next_image, hm, hc]
        refine ⟨?_, ?_⟩ <;> simp [applyOp, hstep] <;> omega
      · have hnc : ¬ t.index_list.length ≤ t.index_ptr + 1 := by omega
        have hstep :
            t.show_next_image = ({ t with index_ptr := t.index_ptr + 1 }, t.image_time) := by
          simp [Trial.show_next_image, hm, hnc]
        refine ⟨?_, ?_⟩ <;> simp [applyOp, hstep, hm] <;> omega
    | COMPLETED =>
      simpa [applyOp, Trial.show_next_image, hm] using ⟨hrun, hle⟩
    | ABORTED =>
      simpa [applyOp, Trial.show_next_image, hm] using ⟨hrun, hle⟩

/-- Claim C10: starting from a freshly built trial (INIT, cursor 0), after
any sequence of `show_next_image` and `reset` calls the cursor is in
bounds whenever the state is RUNNING (so the flash lookup
`index_list[index_ptr]` is valid) and never exceeds `len(index_list)`. -/
theorem C10_cursor_in_bounds (t : Trial) (ops : List Op)
    (hm : t.mode = Mode.INIT) (hp : t.index_ptr = 0) :
    cursorInv (applyOps t ops) := by
  have h0 : cursorInv t := ⟨fun hr => (by rw [hm] at hr; cases hr), by omega⟩
  clear hm hp
  induction ops generalizing t with
  | nil => exact h0
  | cons o rest ih => exact ih (applyOp t o) (cursorInv_step t o h0)

/-- Witness for C10: a concrete fresh trial driven through a full cycle,
a reset, and two further advances. -/
theorem C10_witness :
    cursorInv (applyOps
      (⟨Mode.INIT, 1000, 100, [5, 7], [0, 1, 0], [2, 1], 0, none, none, none⟩ : Trial)
      [Op.advance, Op.advance, Op.advance, Op.advance, Op.advance,
        Op.reset, Op.advance, Op.advance]) :=
  C10_cursor_in_bounds _ _ rfl rfl

/-! ### Claims C2, C8, C4 -/

/-- Counterexample to claim C2 as stated: with repeat plan [2,2] the greedy
order is [0,1,0,1]; the final full `random.shuffle` can realize the
position permutation [0,2,1,3], giving [0,0,1,1], which has two adjacent
equal pairs with different indices and so is not non-adjacent even
granting the trailing-segment exception. -/
theorem C2_counterexample :
    2 ≤ ([2, 2] : List Nat).length ∧ (∀ c ∈ ([2, 2] : List Nat), 1 ≤ c) ∧
    ([0, 2, 1, 3] : List Nat).Perm (List.range (nonadjacent [2, 2]).length) ∧
    construct_trial_order [2, 2] [0, 2, 1, 3] = [0, 0, 1, 1] ∧
    nonAdjExceptTail (construct_trial_order [2, 2] [0, 2, 1, 3]) = false := by
  refine ⟨by decide, by decide, by decide, by decide, by decide⟩

/-- Claim C2 (amended): for every repeat plan with at least 2 options each
of count ≥ 1, the greedy sequence produced by `_nonadjacent` — the
`_construct_trial` order before the final shuffle — has no two adjacent
equal indices except within a trailing constant segment (the run of the
single option with remaining nonzero count); the final `random.shuffle` is
a full shuffle of that sequence and need not preserve the property. -/
theorem C2_amended_greedy_nonadjacent (counts : List Nat)
    (h2 : 2 ≤ counts.length) (hpos : ∀ c ∈ counts, 1 ≤ c) :
    nonAdjExceptTail (nonadjacent counts) = true := by
  obtain ⟨l₁, m, kk, hsplit, hchain⟩ := nonadjacent_split counts
  exact nonAdjExceptTail_of_split hsplit hchain

/-- Witness for the amended C2 at the concrete repeat plan [2,2]. -/
theorem C2_amended_witness : nonAdjExceptTail (nonadjacent [2, 2]) = true :=
  C2_amended_greedy_nonadjacent [2, 2] (by decide) (by decide)

/-- Claim C8: the built presentation order (greedy order plus final
shuffle, the latter an arbitrary position permutation) has length equal to
the sum of the realized repeat counts and contains each option index
exactly its count many times; and the order stored on a trial is never
mutated by `show_next_image` or `reset`. -/
theorem C8_order_multiset (counts perm : List Nat)
    (hpos : ∀ c ∈ counts, 1 ≤ c)
    (hperm : perm.Perm (List.range counts.sum)) :
    (construct_trial_order counts perm).length = counts.sum ∧
    (∀ k, (construct_trial_order counts perm).count k = counts.getD k 0) ∧
    (∀ t : Trial, (t.show_next_image).1.index_list = t.index_list ∧
      (t.reset).1.index_list = t.index_list) := by
  have hbase := nonadjacent_spec counts hpos
  have hperm2 : perm.Perm (List.range (nonadjacent counts).length) := by
    rw [hbase.1]
    exact hperm
  have hperm' : (construct_trial_order counts perm).Perm (nonadjacent counts) := by
    unfold construct_trial_order applyPerm
    have hmap := hperm2.map (fun i => (nonadjacent counts).getD i 0)
    rw [map_getD_range] at hmap
    exact hmap
  refine ⟨?_, ?_, ?_⟩
  · rw [hperm'.length_eq, hbase.1]
  · intro k
    rw [hperm'.count_eq, hbase.2 k]
  · intro t
    exact ⟨(advance_preserves_structure t).1, rfl⟩

/-- Witness for C8 at repeat plan [2,2] and shuffle permutation [0,2,1,3]. -/
theorem C8_witness :
    (construct_trial_order [2, 2] [0, 2, 1, 3]).length = ([2, 2] : List Nat).sum ∧
    (construct_trial_order [2, 2] [0, 2, 1, 3]).count 0 = 2 := by
  have h := C8_order_multiset [2, 2] [0, 2, 1, 3] (by decide) (by decide)
  refine ⟨h.1, ?_⟩
  have h0 := h.2.1 0
  simpa using h0

/-- Claim C4 (code check): `Trial.__init__` draws each repeat count with
`random.randrange(min_repeat, max_repeat)`, whose value set is the
half-open range.  With `min_repeat = max_repeat = 3` (after the clamps of
`__init__`) the range is empty — Python raises `ValueError`, so no repeat
plan `[3, 3, 3]` can be produced — and even with the defaults
`min_repeat = 3`, `max_repeat = 7` the documented maximum 7 is never
drawn. -/
theorem C4_randrange_empty_and_exclusive :
    repeatDomain 3 3 = [] ∧ 7 ∉ repeatDomain 3 7 ∧ repeatDomain 3 7 = [3, 4, 5, 6] := by
  refine ⟨by decide, by decide, by decide⟩

/-! ### Claims C1, C3, C5 -/

/-- The candidate ranking is sorted descending in `avg_best_two`. -/
theorem ranked_sorted (indexList optionCounts optionIds : List Nat)
    (results : List BlockRes) :
    List.Sorted (fun x y : ℚ => y ≤ x)
      ((rankedOptionResults indexList optionCounts optionIds results).map
        (fun o => o.avg_best_two)) :=
  List.pairwise_map.mpr (List.sorted_insertionSort rankLe _)

/-- Counterexample to claim C1 as stated: on the sample set [1, 2, 3] the
code's `avg_best_two` — `np.mean(sorted(eegs)[:2])` — equals 3/2, the mean
of the two smallest values, not the mean 5/2 of the two largest values
demanded by the spec sentence. -/
theorem C1_counterexample :
    2 ≤ ([1, 2, 3] : List ℚ).length ∧
    OptionResult.avg_best_two ⟨0, 3, [1, 2, 3], []⟩ = 3 / 2 ∧
    avgBestTwoSpec [1, 2, 3] = 5 / 2 ∧
    OptionResult.avg_best_two ⟨0, 3, [1, 2, 3], []⟩ ≠ avgBestTwoSpec [1, 2, 3] := by
  refine ⟨by norm_num, ?_, ?_, ?_⟩ <;>
    norm_num [OptionResult.avg_best_two, avgBestTwoSpec, npMean, pySorted,
      List.insertionSort, List.orderedInsert]

/-- Claim C1 (amended): for every option with at least two collected
samples, `avg_best_two` equals the mean of the two *smallest* signal
values in the collected set (there are values `a ≤ b`, both minimal among
the rest, with statistic `(a + b) / 2`), and the ranking produced by
`process_results` lists the options sorted descending by this statistic
(being a permutation of the grouped option results). -/
theorem C1_amended_best_two_smallest (r : OptionResult) (h2 : 2 ≤ r.eegs.length)
    (indexList optionCounts optionIds : List Nat) (results : List BlockRes) :
    (∃ a b l', r.eegs.Perm (a :: b :: l') ∧ a ≤ b ∧ (∀ x ∈ l', b ≤ x) ∧
      r.avg_best_two = (a + b) / 2) ∧
    List.Sorted (fun x y : ℚ => y ≤ x)
      ((rankedOptionResults indexList optionCounts optionIds results).map
        (fun o => o.avg_best_two)) ∧
    (rankedOptionResults indexList optionCounts optionIds results).Perm
      (collectOptionResults indexList optionCounts optionIds results) := by
  refine ⟨?_, ranked_sorted _ _ _ _, List.perm_insertionSort rankLe _⟩
  have hsorted : List.Sorted (· ≤ ·) (pySorted r.eegs) :=
    List.sorted_insertionSort _ r.eegs
  have hperm : (pySorted r.eegs).Perm r.eegs := List.perm_insertionSort _ r.eegs
  have hlen : 2 ≤ (pySorted r.eegs).length := by
    rw [hperm.length_eq]
    exact h2
  rcases hs : pySorted r.eegs with _ | ⟨a, _ | ⟨b, l'⟩⟩
  · rw [hs] at hlen
    simp at hlen
  · rw [hs] at hlen
    simp at hlen
  · rw [hs] at hsorted hperm
    rw [List.sorted_cons] at hsorted
    have hb := hsorted.1 b (List.mem_cons_self _ _)
    rw [List.sorted_cons] at hsorted
    refine ⟨a, b, l', hperm.symm, hb, hsorted.2.1, ?_⟩
    unfold OptionResult.avg_best_two
    rw [hs]
    simp [npMean]

/-- Witness for the amended C1 on the concrete sample set [3, 1, 2]. -/
theorem C1_amended_witness :
    OptionResult.avg_best_two ⟨5, 2, [3, 1, 2], []⟩ = 3 / 2 ∧
    (∃ a b l', (([3, 1, 2] : List ℚ)).Perm (a :: b :: l') ∧ a ≤ b ∧
      (∀ x ∈ l', b ≤ x) ∧
      OptionResult.avg_best_two ⟨5, 2, [3, 1, 2], []⟩ = (a + b) / 2) := by
  constructor
  · norm_num [OptionResult.avg_best_two, npMean, pySorted,
      List.insertionSort, List.orderedInsert]
  · exact (C1_amended_best_two_smallest ⟨5, 2, [3, 1, 2], []⟩ (by norm_num)
      [] [] [] []).1

/-- Claim C5: on an accepted scoring pass, the returned `option_ids` and
`confidences` are aligned and ordered by the `avg_best_two` ranking, and
each confidence is `z(mean(eegs)) * percentage_correct` with
`z(v) = (overall_median - v) / overall_std` and `percentage_correct` the
number of the option's samples with `|z(value)| > 0.5` divided by the
option's expected repeat count. -/
theorem C5_confidence_formulas (indexList optionCounts optionIds : List Nat)
    (results : List BlockRes) (overallStd restStd : ℚ) (out : RankResult)
    (hok : scoreResults indexList optionCounts optionIds results overallStd restStd =
      Except.ok out) :
    out.option_ids = (rankedOptionResults indexList optionCounts optionIds results).map
      (fun o => o.idx) ∧
    out.confidences = (rankedOptionResults indexList optionCounts optionIds results).map
      (fun o =>
        (npMedian (results.map fun r => r.eeg) - npMean o.eegs) / overallStd *
          (((o.eegs.filter fun e =>
              |(npMedian (results.map fun r => r.eeg) - e) / overallStd| > 1/2).length : ℚ) /
            (o.expected_counts : ℚ))) ∧
    List.Sorted (fun x y : ℚ => y ≤ x)
      ((rankedOptionResults indexList optionCounts optionIds results).map
        (fun o => o.avg_best_two)) := by
  simp only [scoreResults] at hok
  split at hok
  · cases hok
  · cases hok
    exact ⟨rfl, rfl, ranked_sorted _ _ _ _⟩

/-- Witness for C5 at a concrete accepted scoring pass (2 options, 2
samples each). -/
theorem C5_witness :
    scoreResults [0, 1, 0, 1] [2, 2] [10, 20]
        [⟨1, 1, 0⟩, ⟨2, 3, 0⟩, ⟨3, 3, 0⟩, ⟨4, 1, 0⟩] 1 0 =
      Except.ok ⟨[10, 20], [0, 0]⟩ ∧
    ([10, 20] : List Nat) =
      (rankedOptionResults [0, 1, 0, 1] [2, 2] [10, 20]
        [⟨1, 1, 0⟩, ⟨2, 3, 0⟩, ⟨3, 3, 0⟩, ⟨4, 1, 0⟩]).map (fun o => o.idx) := by
  have hok : scoreResults [0, 1, 0, 1] [2, 2] [10, 20]
      [⟨1, 1, 0⟩, ⟨2, 3, 0⟩, ⟨3, 3, 0⟩, ⟨4, 1, 0⟩] 1 0 =
      Except.ok ⟨[10, 20], [0, 0]⟩ := by
    norm_num [scoreResults, rankedOptionResults, collectOptionResults, optionIdxOf,
      rankLe, OptionResult.avg_best_two, OptionResult.average_eeg, pySorted, npMean,
      npMedian, zScore, percentageCorrect, confidenceOf, rejectTest,
      List.insertionSort, List.orderedInsert, List.filter, List.range_succ]
  refine ⟨hok, ?_⟩
  exact (C5_confidence_formulas [0, 1, 0, 1] [2, 2] [10, 20]
    [⟨1, 1, 0⟩, ⟨2, 3, 0⟩, ⟨3, 3, 0⟩, ⟨4, 1, 0⟩] 1 0 ⟨[10, 20], [0, 0]⟩ hok).1

/-- Counterexample to claim C3 as stated: a concrete 2-option scoring pass
in which the remaining-confidences list is `[0]`, so `rest_std = 0`
(`IsNpStd [0] 0`), yet the pass is *accepted* — a `RankResult` is
returned — because in floating point `abs(best - rest_mean) / 0.0` is
`inf` or `nan` and compares false against 2; the claim demands rejection
whenever `rest_std == 0`. -/
theorem C3_counterexample :
    ((rankedOptionResults [0, 1, 0, 1] [2, 2] [10, 20]
        [⟨1, 1, 0⟩, ⟨2, 3, 0⟩, ⟨3, 3, 0⟩, ⟨4, 1, 0⟩]).map
      (confidenceOf
        (npMedian (([⟨1, 1, 0⟩, ⟨2, 3, 0⟩, ⟨3, 3, 0⟩, ⟨4, 1, 0⟩] : List BlockRes).map
          (fun r => r.eeg))) 1)).drop 1 = [0] ∧
    IsNpStd [(0 : ℚ)] 0 ∧
    IsNpStd (([⟨1, 1, 0⟩, ⟨2, 3, 0⟩, ⟨3, 3, 0⟩, ⟨4, 1, 0⟩] : List BlockRes).map
      (fun r => r.eeg)) 1 ∧
    scoreResults [0, 1, 0, 1] [2, 2] [10, 20]
        [⟨1, 1, 0⟩, ⟨2, 3, 0⟩, ⟨3, 3, 0⟩, ⟨4, 1, 0⟩] 1 0 =
      Except.ok ⟨[10, 20], [0, 0]⟩ := by
  refine ⟨?_, ?_, ?_, ?_⟩ <;>
    norm_num [scoreResults, rankedOptionResults, collectOptionResults, optionIdxOf,
      rankLe, OptionResult.avg_best_two, OptionResult.average_eeg, pySorted, npMean,
      npMedian, npVar, IsNpStd, zScore, percentageCorrect, confidenceOf, rejectTest,
      List.insertionSort, List.orderedInsert, List.filter, List.range_succ]

/-- Claim C3 (amended): the retry signal is raised if and only if
`rest_std ≠ 0` *and* `|best - rest_mean| / rest_std < 2`; when
`rest_std == 0` the float comparison is false (`inf`/`nan`), so the result
is accepted, and in every non-rejecting case the filled `RankResult` is
returned. -/
theorem C3_amended_rejection_iff (indexList optionCounts optionIds : List Nat)
    (results : List BlockRes) (overallStd restStd : ℚ) :
    (scoreResults indexList optionCounts optionIds results overallStd restStd =
        Except.error () ↔
      (restStd ≠ 0 ∧
        |((rankedOptionResults indexList optionCounts optionIds results).map
            (confidenceOf (npMedian (results.map fun r => r.eeg)) overallStd)).getD 0 0 -
          npMean (((rankedOptionResults indexList optionCounts optionIds results).map
            (confidenceOf (npMedian (results.map fun r => r.eeg)) overallStd)).drop 1)| /
          restStd < 2)) ∧
    (scoreResults indexList optionCounts optionIds results overallStd restStd =
        Except.error () ∨
      scoreResults indexList optionCounts optionIds results overallStd restStd =
        Except.ok
          ⟨(rankedOptionResults indexList optionCounts optionIds results).map
              (fun o => o.idx),
            (rankedOptionResults indexList optionCounts optionIds results).map
              (confidenceOf (npMedian (results.map fun r => r.eeg)) overallStd)⟩) := by
  unfold scoreResults rejectTest
  by_cases h0 : restStd = 0
  · simp only [h0, if_true, ite_true, if_pos rfl]
    constructor
    · constructor
      · intro h
        cases h
      · rintro ⟨hne, _⟩
        exact absurd rfl hne
    · right
      rfl
  · simp only [if_neg h0]
    by_cases hr : |((rankedOptionResults indexList optionCounts optionIds results).map
        (confidenceOf (npMedian (results.map fun r => r.eeg)) overallStd)).getD 0 0 -
          npMean (((rankedOptionResults indexList optionCounts optionIds results).map
            (confidenceOf (npMedian (results.map fun r => r.eeg)) overallStd)).drop 1)| /
          restStd < 2
    · rw [if_pos (by exact decide_eq_true hr)]
      exact ⟨⟨fun _ => ⟨h0, hr⟩, fun _ => rfl⟩, Or.inl rfl⟩
    · rw [if_neg (by simpa using hr)]
      constructor
      · constructor
        · intro h
          cases h
        · rintro ⟨_, hr2⟩
          exact absurd hr2 hr
      · right
        rfl

end RSVP
